import Mathlib

/-!
Verification of `maf_plot.py`: a shallow embedding of the record parser,
MAF reference cursor, merge-join driver (`remaf`), binning engine and the
spec-described random-access MAF index, together with proofs of the
specified properties.

Python floats are modelled as exact rationals (`ℚ`), Python lists as Lean
lists, and uncaught Python exceptions as `Except Err`.
-/

/-- Uncaught Python exceptions that the modelled code can raise. -/
inductive Err
  | indexError
  | valueError
deriving DecidableEq, Repr

/-- Python `str.split()` with no argument: split on runs of whitespace,
dropping empty tokens.  Helper carrying the current (reversed) token. -/
def pySplitAux : List Char → List Char → List String
  | [], [] => []
  | [], cur => [String.mk cur.reverse]
  | c :: rest, cur =>
    if c.isWhitespace then
      if cur.isEmpty then pySplitAux rest []
      else String.mk cur.reverse :: pySplitAux rest []
    else pySplitAux rest (c :: cur)

/-- Python `str.split()` with no argument. -/
def pySplit (s : String) : List String := pySplitAux s.data []

/-- `listContains needle hay`: `needle` occurs as a contiguous run in `hay`. -/
def listContains (needle : List Char) : List Char → Bool
  | [] => needle.isEmpty
  | c :: rest => needle.isPrefixOf (c :: rest) || listContains needle rest

/-- Python `needle in hay` on strings: substring containment. -/
def strContains (hay needle : String) : Bool := listContains needle.data hay.data

/-- Value of a digit list, most significant first. -/
def natOfDigits (cs : List Char) : Nat := cs.foldl (fun a c => 10 * a + (c.toNat - 48)) 0

/-- Python `int(s)` on a plain optionally-signed decimal token: `none` models
`ValueError`. -/
def parseInt (s : String) : Option Int :=
  match s.data with
  | '-' :: rest =>
    if !rest.isEmpty && rest.all Char.isDigit then some (-(natOfDigits rest : Int)) else none
  | '+' :: rest =>
    if !rest.isEmpty && rest.all Char.isDigit then some (natOfDigits rest : Int) else none
  | cs =>
    if !cs.isEmpty && cs.all Char.isDigit then some (natOfDigits cs : Int) else none

/-- Magnitude of a decimal literal `digits [. digits]` as an exact rational. -/
def parseFloatMag (cs : List Char) : Option ℚ :=
  let ip := cs.takeWhile Char.isDigit
  let rest := cs.dropWhile Char.isDigit
  match rest with
  | [] => if ip.isEmpty then none else some (natOfDigits ip : ℚ)
  | '.' :: fp =>
    if fp.all Char.isDigit && (!ip.isEmpty || !fp.isEmpty) then
      some ((natOfDigits ip : ℚ) + (natOfDigits fp : ℚ) / 10 ^ fp.length)
    else none
  | _ => none

/-- Python `float(s)` restricted to plain decimal literals, the only forms the
inputs of this program use (exponents, `inf` and `nan` are omitted); `none`
models `ValueError`.  Floats are modelled as exact rationals. -/
def parseFloat (s : String) : Option ℚ :=
  match s.data with
  | '-' :: rest => (parseFloatMag rest).map (fun q => -q)
  | '+' :: rest => parseFloatMag rest
  | cs => parseFloatMag cs

/-- Python `lst[i]` read access: `IndexError` out of bounds. -/
def pyGet (l : List String) (i : Nat) : Except Err String :=
  match l.get? i with
  | some t => Except.ok t
  | none => Except.error Err.indexError

/-- The default expected header of a snp-stats input file (module constant
`HEADER`). -/
def HEADER : String := "alternate_ids rsid chromosome position alleleA alleleB comment HW_exact_p_value HW_lrt_p_value alleleA_count alleleB_count alleleA_frequency alleleB_frequency minor_allele_frequency minor_allele major_allele info impute_info missing_proportion A B AA AB BB NULL total"

/-- The alternative header for input files without Hardy-Weinberg values
(module constant `ALT_HEADER`). -/
def ALT_HEADER : String := "alternate_ids rsid chromosome position alleleA alleleB comment alleleA_count alleleB_count alleleA_frequency alleleB_frequency minor_allele_frequency minor_allele major_allele info impute_info missing_proportion A B AA AB BB NULL total"

/-- The header currently active: the global `HEADER` is reassigned to
`ALT_HEADER` by `use_alt_header`; the flag `alt` records whether that switch
has happened. -/
def activeHeader (alt : Bool) : String := if alt then ALT_HEADER else HEADER

/-- The global `COLUMN` dict: maps a column name to its index in the active
header (the header tokens are pairwise distinct, so first index = dict value). -/
def COLUMN (alt : Bool) (name : String) : Nat := (pySplit (activeHeader alt)).indexOf name

/-- One line of a snp-stats file, split into tokens (class `Entry`). -/
structure Entry where
  data : List String
deriving DecidableEq, Repr

/-- `Entry.to_string`. -/
def Entry.to_string (e : Entry) : String := String.intercalate " " e.data ++ "\n"

/-- `Entry.info`: the info column parsed as a float; `ValueError` from
`float()` is caught and becomes the sentinel `-1`; `IndexError` propagates. -/
def Entry.info (alt : Bool) (e : Entry) : Except Err ℚ := do
  let t ← pyGet e.data (COLUMN alt "info")
  match parseFloat t with
  | some v => Except.ok v
  | none => Except.ok (-1)

/-- `Entry.chr`. -/
def Entry.chr (alt : Bool) (e : Entry) : Except Err String :=
  pyGet e.data (COLUMN alt "chromosome")

/-- `Entry.pos`: `int(...)` is not wrapped in try/except, so `ValueError`
propagates. -/
def Entry.pos (alt : Bool) (e : Entry) : Except Err Int := do
  let t ← pyGet e.data (COLUMN alt "position")
  (parseInt t).elim (Except.error Err.valueError) Except.ok

/-- `Entry.maf`: like `Entry.info` but for the minor-allele-frequency column. -/
def Entry.maf (alt : Bool) (e : Entry) : Except Err ℚ := do
  let t ← pyGet e.data (COLUMN alt "minor_allele_frequency")
  match parseFloat t with
  | some v => Except.ok v
  | none => Except.ok (-1)

/-- `Entry.set_maf`: writes `str(maf)` into the minor-allele-frequency column;
list assignment raises `IndexError` out of bounds.  `toStr` stands for the
Python `str` conversion. -/
def Entry.set_maf (toStr : ℚ → String) (alt : Bool) (e : Entry) (m : ℚ) : Except Err Entry :=
  if COLUMN alt "minor_allele_frequency" < e.data.length then
    Except.ok ⟨e.data.set (COLUMN alt "minor_allele_frequency") (toStr m)⟩
  else Except.error Err.indexError

/-- `Entry.missing_proportion`: bare `float()`, `ValueError` propagates. -/
def Entry.missing_proportion (alt : Bool) (e : Entry) : Except Err ℚ := do
  let t ← pyGet e.data (COLUMN alt "missing_proportion")
  (parseFloat t).elim (Except.error Err.valueError) Except.ok

/-- `Entry.structural_variant`. -/
def Entry.structural_variant (alt : Bool) (e : Entry) : Except Err Bool := do
  let a ← pyGet e.data (COLUMN alt "alleleA")
  let b ← pyGet e.data (COLUMN alt "alleleB")
  Except.ok (a.length != 1 || b.length != 1)

/-- The five fields `MAF_Reader.advance` assigns from one reference line.
(`mn` stands for the Python attribute named after the minor allele.) -/
structure RefFields where
  chr : String
  pos : Int
  maf : ℚ
  maj : String
  mn : String
deriving DecidableEq, Repr

/-- State of a `MAF_Reader`: the remaining lines of its source, the fields of
the current record (`none` before the first `advance`, when only
`self.chr = None` exists), and the `ended` flag. -/
structure RState where
  stream : List String
  cur : Option RefFields
  ended : Bool
deriving DecidableEq, Repr

/-- `MAF_Reader.__init__`: `chr = None`, `ended = False`. -/
def initR (lines : List String) : RState := ⟨lines, none, false⟩

/-- The current `self.chr` value of a reader (`None` before any `advance`). -/
def RState.chr (rs : RState) : Option String := rs.cur.map RefFields.chr

/-- Parsing of one reference line inside `MAF_Reader.advance`:
`chr = line[0]; pos = int(line[1]); maf = float(line[2]); maj = line[3];
min = line[4]`. -/
def parseLine (l : String) : Except Err RefFields := do
  let t := pySplit l
  let c ← pyGet t 0
  let ps ← pyGet t 1
  let p ← (parseInt ps).elim (Except.error Err.valueError) Except.ok
  let ms ← pyGet t 2
  let m ← (parseFloat ms).elim (Except.error Err.valueError) Except.ok
  let a ← pyGet t 3
  let b ← pyGet t 4
  Except.ok ⟨c, p, m, a, b⟩

/-- `MAF_Reader.advance`.  At end of stream `readline()` returns `""`, whose
`split()` is the empty list; the source then tests `line == ""`, comparing a
list against a string, which is `False` in Python — so the `ended` branch is
dead code and `line[0]` raises `IndexError`. -/
def advance (rs : RState) : Except Err RState :=
  match rs.stream with
  | [] => Except.error Err.indexError
  | l :: rest => (parseLine l).map fun f => ⟨rest, some f, rs.ended⟩

/-- Loop body of `MAF_Reader.advance_to`, structurally recursive on the
remaining stream so that it evaluates by kernel reduction.  The loop guard is
`self.chr != chr and not self.ended`. -/
def advanceToAux (c : String) (cur : Option RefFields) (ended : Bool) :
    List String → Except Err RState
  | [] =>
    if (cur.map RefFields.chr) ≠ some c ∧ ended = false then Except.error Err.indexError
    else Except.ok ⟨[], cur, ended⟩
  | l :: rest =>
    if (cur.map RefFields.chr) ≠ some c ∧ ended = false then
      match parseLine l with
      | Except.error e => Except.error e
      | Except.ok f => advanceToAux c (some f) ended rest
    else Except.ok ⟨l :: rest, cur, ended⟩

/-- `MAF_Reader.advance_to`. -/
def advance_to (c : String) (rs : RState) : Except Err RState :=
  advanceToAux c rs.cur rs.ended rs.stream

/-- The guard of the catch-up loop in `remaf.process_entry`:
`not maf_reader.ended and maf_reader.chr == chr and maf_reader.pos < pos`
(short-circuit: with no current record, `None == chr` is already `False`,
so `pos` is never touched). -/
def skipCond (c : String) (p : Int) (cur : Option RefFields) (ended : Bool) : Bool :=
  !ended && (match cur with
    | some f => f.chr == c && decide (f.pos < p)
    | none => false)

/-- The catch-up loop of `remaf.process_entry`, structurally recursive on the
remaining stream. -/
def skipLtAux (c : String) (p : Int) (cur : Option RefFields) (ended : Bool) :
    List String → Except Err RState
  | [] =>
    if skipCond c p cur ended then Except.error Err.indexError
    else Except.ok ⟨[], cur, ended⟩
  | l :: rest =>
    if skipCond c p cur ended then
      match parseLine l with
      | Except.error e => Except.error e
      | Except.ok f => skipLtAux c p (some f) ended rest
    else Except.ok ⟨l :: rest, cur, ended⟩

/-- The catch-up loop of `remaf.process_entry` on a reader state. -/
def skipLt (c : String) (p : Int) (rs : RState) : Except Err RState :=
  skipLtAux c p rs.cur rs.ended rs.stream

/-- The state `remaf` threads through one chromosome: the reader, the global
`hits` and `misses` counters, and the lines written to `dest_file`. -/
structure JState where
  rs : RState
  hits : Nat
  misses : Nat
  out : List String
deriving DecidableEq, Repr

/-- `remaf.process_entry`: catch the reader up to the record's position, then
hit (overwrite MAF from the reader) or miss (overwrite MAF with `-1`), count,
and write the record. -/
def process_entry (toStr : ℚ → String) (alt : Bool) (st : JState) (e : Entry) :
    Except Err JState := do
  let p ← Entry.pos alt e
  let c ← Entry.chr alt e
  let rs ← skipLt c p st.rs
  let hit : Option ℚ :=
    match rs.cur with
    | some f => if rs.ended = false ∧ f.chr = c ∧ f.pos = p then some f.maf else none
    | none => none
  match hit with
  | some m => do
    let e' ← Entry.set_maf toStr alt e m
    Except.ok ⟨rs, st.hits + 1, st.misses, st.out ++ [e'.to_string]⟩
  | none => do
    let e' ← Entry.set_maf toStr alt e (-1)
    Except.ok ⟨rs, st.hits, st.misses + 1, st.out ++ [e'.to_string]⟩

/-- The process-wide state seen by `Entry.for_entry`: whether the global
header has been switched to the alternate one, how often `use_alt_header`
ran, and the state of the per-record callback. -/
structure GState (σ : Type) where
  alt : Bool
  switches : Nat
  inner : σ
deriving DecidableEq, Repr

/-- One line of `Entry.for_entry`: skip comment lines (`line[0] == "#"`,
`IndexError` on an empty string), skip lines containing the active header,
switch on lines containing the alternate header, and otherwise hand
`Entry(line.split())` to the callback. -/
def feStep (f : Bool → σ → Entry → Except Err σ) (g : GState σ) (line : String) :
    Except Err (GState σ) :=
  match line.data.head? with
  | none => Except.error Err.indexError
  | some ch =>
    if ch = '#' then Except.ok g
    else if strContains line (activeHeader g.alt) then Except.ok g
    else if strContains line ALT_HEADER then Except.ok ⟨true, g.switches + 1, g.inner⟩
    else (f g.alt g.inner ⟨pySplit line⟩).map fun s => ⟨g.alt, g.switches, s⟩

/-- `Entry.for_entry`: fold `feStep` over the lines of the source. -/
def for_entry (f : Bool → σ → Entry → Except Err σ) (g : GState σ)
    (lines : List String) : Except Err (GState σ) :=
  lines.foldlM (feStep f) g

/-- One chromosome pass of `remaf`: advance the reader to `chrI`, write the
active header to the fresh destination file, zero the counters, and run
`for_entry` with `process_entry` over the variant source lines. -/
def remafChrom (toStr : ℚ → String) (alt : Bool) (i : Nat) (rs : RState)
    (lines : List String) : Except Err (GState JState) := do
  let rs' ← advance_to ("chr" ++ toString i) rs
  for_entry (process_entry toStr) ⟨alt, 0, ⟨rs', 0, 0, [activeHeader alt ++ "\n"]⟩⟩ lines

/-- A `Bin`: a numeric range with a running count and running mean. -/
structure Bin where
  minimum : ℚ
  maximum : ℚ
  n : Nat
  average : ℚ
deriving DecidableEq, Repr

/-- `Bin.__init__`. -/
def Bin.init (minimum maximum : ℚ) : Bin := ⟨minimum, maximum, 0, 0⟩

/-- `Bin.add`: `n += 1; average = average + (value - average)/n`. -/
def Bin.add (b : Bin) (value : ℚ) : Bin :=
  { b with n := b.n + 1, average := b.average + (value - b.average) / ((b.n : ℚ) + 1) }

/-- `Bin.in_range`: strict double inequality `minimum < item < maximum`. -/
def Bin.in_range (b : Bin) (item : ℚ) : Bool :=
  decide (b.minimum < item) && decide (item < b.maximum)

/-- `Bin.add_if_in_range`: returns whether the value was added, together with
the (possibly updated) bin. -/
def Bin.add_if_in_range (b : Bin) (x y : ℚ) : Bool × Bin :=
  if b.in_range x then (true, b.add y) else (false, b)

/-- `Bin.default_bins`. -/
def Bin.default_bins : List Bin :=
  [Bin.init 0 0.0005,
   Bin.init 0.0005 0.001,
   Bin.init 0.001 0.002,
   Bin.init 0.002 0.005,
   Bin.init 0.005 0.01,
   Bin.init 0.01 0.015,
   Bin.init 0.015 0.02,
   Bin.init 0.02 0.035,
   Bin.init 0.035 0.05,
   Bin.init 0.05 0.1,
   Bin.init 0.1 0.2,
   Bin.init 0.2 0.3,
   Bin.init 0.3 0.4,
   Bin.init 0.4 0.5]

/-- `Bin.sort`: insert `item` into the first bin whose range contains `key`;
return whether any bin matched, together with the updated bin list. -/
def Bin.sort : List Bin → ℚ → ℚ → Bool × List Bin
  | [], _, _ => (false, [])
  | b :: rest, key, item =>
    match b.add_if_in_range key item with
    | (true, b') => (true, b' :: rest)
    | (false, _) =>
      let r := Bin.sort rest key item
      (r.1, b :: r.2)

/-- The consecutive boundaries of `Bin.default_bins`. -/
def binBoundaries : List ℚ :=
  [0, 0.0005, 0.001, 0.002, 0.005, 0.01, 0.015, 0.02, 0.035, 0.05, 0.1, 0.2, 0.3, 0.4, 0.5]

/-- Fresh bins over the consecutive pairs of a boundary list. -/
def mkBins : List ℚ → List Bin
  | a :: b :: rest => Bin.init a b :: mkBins (b :: rest)
  | _ => []

/-- One row of the MAF reference file as the random-access index reads it
(only the first three columns are used). -/
structure RefEntry where
  chr : String
  pos : Int
  maf : ℚ
deriving DecidableEq, Repr

/-- Modelled from the spec: the `MafIndex` ("MAF Source") random-access
lookup of spec section 4.4 is described in the specification but the class is
absent from `src/`.  Binary search over the line range `[lo, hi)` of a
chromosome: compare the midpoint line's position with the target, return its
MAF on equality, halve the range otherwise, `-1` when the range is exhausted.
The fuel argument only forces termination; `hi - lo` steps always suffice. -/
def lookupAux (lines : List RefEntry) (p : Int) : Nat → Nat → Nat → ℚ
  | 0, _, _ => -1
  | fuel + 1, lo, hi =>
    if hi ≤ lo then -1
    else
      match lines.get? ((lo + hi) / 2) with
      | none => -1
      | some e =>
        if e.pos = p then e.maf
        else if p < e.pos then lookupAux lines p fuel lo ((lo + hi) / 2)
        else lookupAux lines p fuel ((lo + hi) / 2 + 1) hi

/-- Modelled from the spec: `MafIndex.lookup(chromosome, position)` —
binary search within the chromosome's line range `[lo, hi)`. -/
def MafIndex.lookup (lines : List RefEntry) (lo hi : Nat) (p : Int) : ℚ :=
  lookupAux lines p (hi - lo) lo hi

/-- A linear scan of the reference file for `(chromosome, position)`: the
comparison baseline named by the spec for `MafIndex.lookup`. -/
def linearScan : List RefEntry → String → Int → ℚ
  | [], _, _ => -1
  | e :: rest, c, p => if e.chr = c ∧ e.pos = p then e.maf else linearScan rest c p

/-- The callback used to observe which entries `for_entry` hands to `f`:
collect every entry's token list. -/
def collectCb : Bool → List (List String) → Entry → Except Err (List (List String)) :=
  fun _ acc e => Except.ok (acc ++ [e.data])

/-- `for_entry` with the collecting callback. -/
def forEntryCollect (g : GState (List (List String))) (lines : List String) :
    Except Err (GState (List (List String))) :=
  for_entry collectCb g lines

/-- An observer callback that also records the header flag it is invoked
with: in the source the per-record callback reads the global `COLUMN`
mapping, so the flag paired with each entry is exactly the column mapping
active at the moment that line was handed over. -/
def collectCbTagged : Bool → List (Bool × List String) → Entry →
    Except Err (List (Bool × List String)) :=
  fun a acc e => Except.ok (acc ++ [(a, e.data)])

/-- `for_entry` with the tagged collecting callback. -/
def forEntryCollectTagged (g : GState (List (Bool × List String)))
    (lines : List String) : Except Err (GState (List (Bool × List String))) :=
  for_entry collectCbTagged g lines

theorem bin_add_count (b : Bin) (v : ℚ) : (b.add v).n = b.n + 1 := rfl

theorem bin_add_sum (b : Bin) (v : ℚ) :
    (b.add v).average * (((b.add v).n : ℕ) : ℚ) = b.average * (b.n : ℚ) + v := by
  have hne : ((b.n : ℚ) + 1) ≠ 0 := by positivity
  simp only [Bin.add, bin_add_count]
  push_cast
  field_simp
  ring

theorem foldl_bin_add (vs : List ℚ) :
    ∀ b : Bin, (vs.foldl Bin.add b).n = b.n + vs.length ∧
      (vs.foldl Bin.add b).average * (((vs.foldl Bin.add b).n : ℕ) : ℚ) =
        b.average * (b.n : ℚ) + vs.sum := by
  induction vs with
  | nil => intro b; simp
  | cons v vs ih =>
    intro b
    obtain ⟨h1, h2⟩ := ih (b.add v)
    refine ⟨?_, ?_⟩
    · rw [List.foldl_cons, h1, bin_add_count, List.length_cons]; omega
    · rw [List.foldl_cons, h2, bin_add_sum, List.sum_cons]
      ring

/-- C3: adding values `v1..vk` to a fresh `Bin` leaves count `k` and average
equal to the exact arithmetic mean of the values (0 for `k = 0`), maintained
by the incremental update `average += (value - average)/n` over exact
rational arithmetic. -/
theorem bin_running_mean_exact (minimum maximum : ℚ) (vs : List ℚ) :
    (vs.foldl Bin.add (Bin.init minimum maximum)).n = vs.length ∧
    (vs.foldl Bin.add (Bin.init minimum maximum)).average =
      (if vs.length = 0 then 0 else vs.sum / (vs.length : ℚ)) := by
  obtain ⟨h1, h2⟩ := foldl_bin_add vs (Bin.init minimum maximum)
  have h1' : (vs.foldl Bin.add (Bin.init minimum maximum)).n = vs.length := by
    simpa [Bin.init] using h1
  refine ⟨h1', ?_⟩
  rcases eq_or_ne vs.length 0 with h0 | h0
  · rw [List.length_eq_zero] at h0
    subst h0
    simp [Bin.init]
  · rw [if_neg h0]
    have hn : ((vs.length : ℕ) : ℚ) ≠ 0 := Nat.cast_ne_zero.mpr h0
    rw [h1'] at h2
    simp only [Bin.init, Nat.cast_zero, mul_zero, zero_mul, zero_add] at h2
    rw [eq_div_iff hn]
    exact h2

/-- C5: `Bin.sort` returns `true` exactly when some bin's range contains the
key; on `false` every bin is unchanged (silently dropped); on `true` the item
is added to precisely the first matching bin in list order and all other bins
are unchanged. -/
theorem bin_sort_first_match (bins : List Bin) (key item : ℚ) :
    ((Bin.sort bins key item).1 = bins.any fun b => b.in_range key) ∧
    ((bins.any fun b => b.in_range key) = false → (Bin.sort bins key item).2 = bins) ∧
    ((bins.any fun b => b.in_range key) = true →
      ∃ b, bins.get? (bins.takeWhile fun b => !(b.in_range key)).length = some b ∧
        b.in_range key = true ∧
        (Bin.sort bins key item).2 =
          bins.set (bins.takeWhile fun b => !(b.in_range key)).length (b.add item)) := by
  induction bins with
  | nil => simp [Bin.sort]
  | cons b rest ih =>
    by_cases hb : b.in_range key
    · refine ⟨?_, ?_, ?_⟩
      · simp [Bin.sort, Bin.add_if_in_range, hb]
      · intro h
        simp [hb] at h
      · intro _
        refine ⟨b, ?_, hb, ?_⟩
        · simp [List.takeWhile_cons, hb]
        · simp [Bin.sort, Bin.add_if_in_range, hb, List.takeWhile_cons]
    · obtain ⟨ih1, ih2, ih3⟩ := ih
      refine ⟨?_, ?_, ?_⟩
      · simp [Bin.sort, Bin.add_if_in_range, hb, ih1]
      · intro h
        simp only [List.any_cons, Bool.or_eq_false_iff] at h
        simp [Bin.sort, Bin.add_if_in_range, hb, ih2 h.2]
      · intro h
        simp only [List.any_cons, Bool.or_eq_true] at h
        have hany : (rest.any fun b => b.in_range key) = true := by
          rcases h with h | h
          · exact absurd h hb
          · exact h
        obtain ⟨b', hget, hin, hset⟩ := ih3 hany
        refine ⟨b', ?_, hin, ?_⟩
        · simpa [List.takeWhile_cons, hb] using hget
        · simp [Bin.sort, Bin.add_if_in_range, hb, List.takeWhile_cons, hset]

/-- C5 witness: a concrete run of `Bin.sort` in both the matched and the
unmatched case. -/
theorem bin_sort_first_match_witness :
    ((Bin.sort [Bin.init 0 1, Bin.init 1 2] (1/2) 3).1 =
      ([Bin.init 0 1, Bin.init 1 2].any fun b => b.in_range (1/2))) ∧
    (((Bin.sort [Bin.init 0 1] 7 3).2 = [Bin.init 0 1])) := by
  refine ⟨(bin_sort_first_match [Bin.init 0 1, Bin.init 1 2] (1/2) 3).1, ?_⟩
  refine (bin_sort_first_match [Bin.init 0 1] 7 3).2.1 ?_
  simp [Bin.in_range, Bin.init]

theorem getLast?_some_mem {α : Type} : ∀ (l : List α) (a : α), l.getLast? = some a → a ∈ l := by
  intro l
  induction l with
  | nil => intro a h; simp at h
  | cons b bs ih =>
    intro a h
    cases bs with
    | nil =>
      rw [List.getLast?_singleton, Option.some_inj] at h
      simp [h]
    | cons b1 rest =>
      rw [List.getLast?_cons_cons] at h
      exact List.mem_cons_of_mem b (ih a h)

theorem mkBins_countP_of_le_head (x : ℚ) :
    ∀ (l : List ℚ) (B : ℚ), List.Pairwise (· < ·) l → l.head? = some B → x ≤ B →
      ((mkBins l).countP fun bin => bin.in_range x) = 0 := by
  intro l
  induction l with
  | nil => intro B _ hB; simp at hB
  | cons b bs ih =>
    intro B hp hB hx
    rw [List.head?_cons, Option.some_inj] at hB
    rw [← hB] at hx
    cases bs with
    | nil => simp [mkBins]
    | cons b1 rest =>
      have hbb1 : b < b1 := (List.pairwise_cons.mp hp).1 b1 (by simp)
      rw [show mkBins (b :: b1 :: rest) = Bin.init b b1 :: mkBins (b1 :: rest) from rfl,
        List.countP_cons]
      have h1 : (Bin.init b b1).in_range x = false := by
        simp only [Bin.in_range, Bin.init, Bool.and_eq_false_iff, decide_eq_false_iff_not,
          not_lt]
        exact Or.inl hx
      rw [ih b1 (List.pairwise_cons.mp hp).2 rfl (le_of_lt (lt_of_le_of_lt hx hbb1))]
      simp [h1]

theorem mkBins_countP_of_ge_last (x : ℚ) :
    ∀ (l : List ℚ) (L : ℚ), List.Pairwise (· < ·) l → l.getLast? = some L → L ≤ x →
      ((mkBins l).countP fun bin => bin.in_range x) = 0 := by
  intro l
  induction l with
  | nil => intro L _ hL; simp at hL
  | cons b bs ih =>
    intro L hp hL hx
    cases bs with
    | nil => simp [mkBins]
    | cons b1 rest =>
      rw [List.getLast?_cons_cons] at hL
      have hLmem : L ∈ b1 :: rest := getLast?_some_mem (b1 :: rest) L hL
      have hb1L : b1 ≤ L := by
        rcases List.mem_cons.mp hLmem with h | h
        · exact le_of_eq h.symm
        · exact le_of_lt (((List.pairwise_cons.mp (List.pairwise_cons.mp hp).2).1) L h)
      have h1 : (Bin.init b b1).in_range x = false := by
        simp only [Bin.in_range, Bin.init, Bool.and_eq_false_iff, decide_eq_false_iff_not,
          not_lt]
        exact Or.inr (le_trans hb1L hx)
      rw [show mkBins (b :: b1 :: rest) = Bin.init b b1 :: mkBins (b1 :: rest) from rfl,
        List.countP_cons, ih L (List.pairwise_cons.mp hp).2 hL hx]
      simp [h1]

theorem mkBins_countP_of_mem (x : ℚ) :
    ∀ l : List ℚ, List.Pairwise (· < ·) l → x ∈ l →
      ((mkBins l).countP fun bin => bin.in_range x) = 0 := by
  intro l
  induction l with
  | nil => intro _ h; simp at h
  | cons b bs ih =>
    intro hp hm
    cases bs with
    | nil => simp [mkBins]
    | cons b1 rest =>
      rcases List.mem_cons.mp hm with h | h
      · exact mkBins_countP_of_le_head x (b :: b1 :: rest) b hp rfl (le_of_eq h)
      · have hb1x : b1 ≤ x := by
          rcases List.mem_cons.mp h with h' | h'
          · exact le_of_eq h'.symm
          · exact le_of_lt ((List.pairwise_cons.mp (List.pairwise_cons.mp hp).2).1 x h')
        have h1 : (Bin.init b b1).in_range x = false := by
          simp only [Bin.in_range, Bin.init, Bool.and_eq_false_iff, decide_eq_false_iff_not,
            not_lt]
          exact Or.inr hb1x
        rw [show mkBins (b :: b1 :: rest) = Bin.init b b1 :: mkBins (b1 :: rest) from rfl,
          List.countP_cons, ih (List.pairwise_cons.mp hp).2 h]
        simp [h1]

theorem mkBins_countP_interior (x : ℚ) :
    ∀ (l : List ℚ) (B L : ℚ), List.Pairwise (· < ·) l → l.head? = some B →
      l.getLast? = some L → B < x → x < L → x ∉ l →
      ((mkBins l).countP fun bin => bin.in_range x) = 1 := by
  intro l
  induction l with
  | nil => intro B L _ hB; simp at hB
  | cons b bs ih =>
    intro B L hp hB hL hBx hxL hnm
    rw [List.head?_cons, Option.some_inj] at hB
    rw [← hB] at hBx
    cases bs with
    | nil =>
      rw [List.getLast?_singleton, Option.some_inj] at hL
      rw [← hL] at hxL
      exact absurd (lt_trans hBx hxL) (lt_irrefl b)
    | cons b1 rest =>
      rw [List.getLast?_cons_cons] at hL
      have hx1 : x ≠ b1 := fun h => hnm (by simp [h])
      rw [show mkBins (b :: b1 :: rest) = Bin.init b b1 :: mkBins (b1 :: rest) from rfl,
        List.countP_cons]
      rcases lt_trichotomy x b1 with h | h | h
      · have h1 : (Bin.init b b1).in_range x = true := by
          simp only [Bin.in_range, Bin.init, Bool.and_eq_true, decide_eq_true_eq]
          exact ⟨hBx, h⟩
        rw [mkBins_countP_of_le_head x (b1 :: rest) b1 (List.pairwise_cons.mp hp).2 rfl
          (le_of_lt h)]
        simp [h1]
      · exact absurd h hx1
      · have h1 : (Bin.init b b1).in_range x = false := by
          simp only [Bin.in_range, Bin.init, Bool.and_eq_false_iff, decide_eq_false_iff_not,
            not_lt]
          exact Or.inr (le_of_lt h)
        rw [ih b1 L (List.pairwise_cons.mp hp).2 rfl hL h hxL
          (fun hm => hnm (List.mem_cons_of_mem b hm))]
        simp [h1]

theorem binBoundaries_pairwise : List.Pairwise (· < ·) binBoundaries := by
  norm_num [binBoundaries, List.pairwise_cons]

/-- C4: `Bin.default_bins` is the list of 14 bins over the consecutive
boundaries `0, 0.0005, ..., 0.5`; every `x` strictly inside `(0, 0.5)` that is
not a boundary value lies in the range of exactly one bin, while every
boundary value and every `x ≤ 0` or `x ≥ 0.5` lies in no bin's range
(membership being the strict double inequality). -/
theorem default_bins_partition :
    Bin.default_bins.length = 14 ∧
    (Bin.default_bins.map fun b => (b.minimum, b.maximum)) =
      binBoundaries.zip binBoundaries.tail ∧
    (∀ x : ℚ, 0 < x → x < 0.5 → x ∉ binBoundaries →
      (Bin.default_bins.countP fun b => b.in_range x) = 1) ∧
    (∀ x : ℚ, x ∈ binBoundaries →
      (Bin.default_bins.countP fun b => b.in_range x) = 0) ∧
    (∀ x : ℚ, x ≤ 0 ∨ 0.5 ≤ x →
      (Bin.default_bins.countP fun b => b.in_range x) = 0) := by
  have hbd : Bin.default_bins = mkBins binBoundaries := rfl
  refine ⟨rfl, rfl, ?_, ?_, ?_⟩
  · intro x h0 h5 hnm
    rw [hbd]
    exact mkBins_countP_interior x binBoundaries 0 0.5 binBoundaries_pairwise rfl rfl h0 h5 hnm
  · intro x hm
    rw [hbd]
    exact mkBins_countP_of_mem x binBoundaries binBoundaries_pairwise hm
  · intro x hm
    rw [hbd]
    rcases hm with h | h
    · exact mkBins_countP_of_le_head x binBoundaries 0 binBoundaries_pairwise rfl h
    · exact mkBins_countP_of_ge_last x binBoundaries 0.5 binBoundaries_pairwise rfl h

/-- C4 witness: concrete membership counts for an interior point, a boundary
point, and points outside `(0, 0.5)`. -/
theorem default_bins_partition_checks :
    (Bin.default_bins.countP fun b => b.in_range 0.003) = 1 ∧
    (Bin.default_bins.countP fun b => b.in_range 0.05) = 0 ∧
    (Bin.default_bins.countP fun b => b.in_range 0.7) = 0 := by
  refine ⟨?_, ?_, ?_⟩
  · refine default_bins_partition.2.2.1 0.003 (by norm_num) (by norm_num) ?_
    simp only [binBoundaries, List.mem_cons, List.not_mem_nil, or_false]
    norm_num
  · refine default_bins_partition.2.2.2.1 0.05 ?_
    simp only [binBoundaries, List.mem_cons]
    norm_num
  · exact default_bins_partition.2.2.2.2 0.7 (Or.inr (by norm_num))

/-- C2 (code bug): on an exhausted source, `MAF_Reader.advance` raises
`IndexError` instead of setting `ended` — `readline().split()` is a list, so
the guard `line == ""` is always `False` in Python and `line[0]` is evaluated
on an empty list.  A successful `advance` never sets `ended` either, so the
`ended` state the claim describes is unreachable. -/
theorem maf_reader_advance_eof_raises :
    advance ⟨[], some ⟨"chr1", 50, 2, "A", "T"⟩, false⟩ = Except.error Err.indexError ∧
    advance (initR []) = Except.error Err.indexError ∧
    advance (initR ["chr1 5 2 A T"]) =
      Except.ok ⟨[], some ⟨"chr1", 5, 2, "A", "T"⟩, false⟩ :=
  ⟨rfl, rfl, rfl⟩

/-- C9 counterexample: a cursor positioned on `chr2` with target `chr1`
(a chromosome that comes after the target) is not left unchanged —
`advance_to` keeps reading lines to the end of the stream (and then raises
`IndexError` through the `advance` end-of-stream bug). -/
theorem advance_to_past_target_advances :
    advance_to "chr1" ⟨["chr3 7 2 A T"], some ⟨"chr2", 5, 1, "A", "T"⟩, false⟩ =
      Except.error Err.indexError ∧
    advance_to "chr1" ⟨["chr3 7 2 A T"], some ⟨"chr2", 5, 1, "A", "T"⟩, false⟩ ≠
      Except.ok ⟨["chr3 7 2 A T"], some ⟨"chr2", 5, 1, "A", "T"⟩, false⟩ := by
  refine ⟨rfl, ?_⟩
  intro h
  rw [show advance_to "chr1" ⟨["chr3 7 2 A T"], some ⟨"chr2", 5, 1, "A", "T"⟩, false⟩ =
    Except.error Err.indexError from rfl] at h
  exact Except.noConfusion h

/-- C9 (amended): `advance_to` is a no-op exactly when the cursor's current
chromosome already equals the target (or the `ended` flag is set): the loop
guard is `self.chr != chr`, so a cursor on a chromosome past the target keeps
advancing. -/
theorem advance_to_noop_at_target (c : String) (rs : RState)
    (h : rs.chr = some c ∨ rs.ended = true) : advance_to c rs = Except.ok rs := by
  obtain ⟨stream, cur, ended⟩ := rs
  have hcond : ¬((cur.map RefFields.chr) ≠ some c ∧ ended = false) := by
    rcases h with h | h
    · intro hc
      exact hc.1 h
    · intro hc
      have h' : ended = true := h
      rw [h'] at hc
      exact Bool.noConfusion hc.2
  cases stream with
  | nil =>
    show advanceToAux c cur ended [] = _
    simp only [advanceToAux]
    rw [if_neg hcond]
  | cons l rest =>
    show advanceToAux c cur ended (l :: rest) = _
    simp only [advanceToAux]
    rw [if_neg hcond]

/-- C9 witness: a cursor already at the target chromosome, with lines still
available, is returned unchanged and reads nothing. -/
theorem advance_to_noop_at_target_witness :
    advance_to "chr2" ⟨["chr3 7 2 A T"], some ⟨"chr2", 5, 1, "A", "T"⟩, false⟩ =
      Except.ok ⟨["chr3 7 2 A T"], some ⟨"chr2", 5, 1, "A", "T"⟩, false⟩ :=
  advance_to_noop_at_target "chr2" ⟨["chr3 7 2 A T"], some ⟨"chr2", 5, 1, "A", "T"⟩, false⟩
    (Or.inl rfl)

/-- C1 (code bug): per chromosome, `remaf` matches each variant record
against the reference cursor, overwriting MAF with the reference value on a
position hit and with `-1` on a miss, counting hits and misses — the second
conjunct replays the spec's own end-to-end scenario, positions
`[100, 200, 300]` against reference `[100 ↦ 2, 300 ↦ 3]`, giving MAF tokens
`["2", "-1", "3"]` and 2 hits, 1 miss.  But when the reference stream ends
while the cursor is still catching up on the current chromosome, the run
raises `IndexError` (through the `advance` end-of-stream bug) instead of
recording the remaining records as misses: the first conjunct shows a sorted
variant stream at position 100 against a sorted reference whose single line
is `chr1 50`, where the claim requires a written `-1` and one miss. -/
theorem remaf_merge_join_behavior :
    remafChrom (fun q => toString q) false 1 (initR ["chr1 50 2 A T"])
      ["a b chr1 100 A T c d e f g h i 0.9"] = Except.error Err.indexError ∧
    (remafChrom (fun q => toString q) false 1
      (initR ["chr1 100 2 A T", "chr1 300 3 A T", "chr2 1 4 A T"])
      ["a b chr1 100 A T c d e f g h i 0.9",
       "a b chr1 200 A T c d e f g h i 0.9",
       "a b chr1 300 A T c d e f g h i 0.9"]).map
        (fun g => (g.inner.hits, g.inner.misses,
          g.inner.out.map fun s => (pySplit s).get? 13)) =
      Except.ok (2, 1, [some "minor_allele_frequency", some "2", some "-1", some "3"]) :=
  ⟨rfl, rfl⟩

theorem feStep_switch_inv {σ : Type} (f : Bool → σ → Entry → Except Err σ)
    (g g' : GState σ) (line : String) (h : feStep f g line = Except.ok g')
    (hg : g.alt = false → g.switches = 0) (hg1 : g.switches ≤ 1) :
    (g'.alt = false → g'.switches = 0) ∧ g'.switches ≤ 1 := by
  cases hL : line.data.head? with
  | none =>
    simp only [feStep, hL] at h
    exact Except.noConfusion h
  | some ch =>
    simp only [feStep, hL] at h
    by_cases h1 : ch = '#'
    · rw [if_pos h1, Except.ok.injEq] at h
      rw [← h]
      exact ⟨hg, hg1⟩
    · rw [if_neg h1] at h
      by_cases h2 : strContains line (activeHeader g.alt) = true
      · rw [if_pos h2, Except.ok.injEq] at h
        rw [← h]
        exact ⟨hg, hg1⟩
      · rw [if_neg h2] at h
        by_cases h3 : strContains line ALT_HEADER = true
        · rw [if_pos h3, Except.ok.injEq] at h
          have halt : g.alt = false := by
            by_contra hh
            rw [Bool.not_eq_false] at hh
            rw [activeHeader, if_pos hh] at h2
            exact h2 h3
          rw [← h]
          refine ⟨fun hh => Bool.noConfusion hh, ?_⟩
          simp [hg halt]
        · rw [if_neg h3] at h
          cases hf : f g.alt g.inner ⟨pySplit line⟩ with
          | error e =>
            rw [hf] at h
            exact Except.noConfusion h
          | ok s =>
            rw [hf] at h
            have h' : (⟨g.alt, g.switches, s⟩ : GState σ) = g' := Except.ok.inj h
            rw [← h']
            exact ⟨hg, hg1⟩

theorem for_entry_switch_inv {σ : Type} (f : Bool → σ → Entry → Except Err σ) :
    ∀ (lines : List String) (g g' : GState σ), for_entry f g lines = Except.ok g' →
      (g.alt = false → g.switches = 0) → g.switches ≤ 1 →
      ((g'.alt = false → g'.switches = 0) ∧ g'.switches ≤ 1) := by
  intro lines
  induction lines with
  | nil =>
    intro g g' h hg hg1
    rw [show for_entry f g [] = Except.ok g from rfl, Except.ok.injEq] at h
    rw [← h]
    exact ⟨hg, hg1⟩
  | cons l rest ih =>
    intro g g' h hg hg1
    rw [show for_entry f g (l :: rest) = (feStep f g l).bind (fun g1 => for_entry f g1 rest)
      from rfl] at h
    cases hstep : feStep f g l with
    | error e =>
      rw [hstep] at h
      exact Except.noConfusion h
    | ok g1 =>
      rw [hstep] at h
      obtain ⟨ha, hb⟩ := feStep_switch_inv f g g1 l hstep hg hg1
      exact ih g1 g' h ha hb

theorem feStep_tagged_seen (g g' : GState (List (Bool × List String))) (line : String)
    (h : feStep collectCbTagged g line = Except.ok g') :
    ∀ pr ∈ g'.inner, pr ∈ g.inner ∨
      (pr.2 = pySplit line ∧ line.data.head? ≠ some '#' ∧
        strContains line (activeHeader pr.1) = false ∧
        strContains line ALT_HEADER = false) := by
  cases hL : line.data.head? with
  | none =>
    simp only [feStep, hL] at h
    exact Except.noConfusion h
  | some ch =>
    simp only [feStep, hL] at h
    by_cases h1 : ch = '#'
    · rw [if_pos h1, Except.ok.injEq] at h
      rw [← h]
      exact fun pr hpr => Or.inl hpr
    · rw [if_neg h1] at h
      by_cases h2 : strContains line (activeHeader g.alt) = true
      · rw [if_pos h2, Except.ok.injEq] at h
        rw [← h]
        exact fun pr hpr => Or.inl hpr
      · rw [if_neg h2] at h
        by_cases h3 : strContains line ALT_HEADER = true
        · rw [if_pos h3, Except.ok.injEq] at h
          rw [← h]
          exact fun pr hpr => Or.inl hpr
        · rw [if_neg h3] at h
          have h' : (⟨g.alt, g.switches, g.inner ++ [(g.alt, pySplit line)]⟩ :
              GState (List (Bool × List String))) = g' := Except.ok.inj h
          rw [← h']
          intro pr hpr
          rcases List.mem_append.mp hpr with hm | hm
          · exact Or.inl hm
          · have hpr' : pr = (g.alt, pySplit line) := by simpa using hm
            refine Or.inr ⟨by rw [hpr'], ?_, ?_, ?_⟩
            · intro hc
              exact h1 (Option.some_inj.mp hc)
            · rw [hpr']
              exact Bool.eq_false_iff.mpr h2
            · exact Bool.eq_false_iff.mpr h3

theorem for_entry_tagged_seen :
    ∀ (lines : List String) (g g' : GState (List (Bool × List String))),
      forEntryCollectTagged g lines = Except.ok g' →
      ∀ pr ∈ g'.inner, pr ∈ g.inner ∨
        ∃ l, l ∈ lines ∧ pr.2 = pySplit l ∧ l.data.head? ≠ some '#' ∧
          strContains l (activeHeader pr.1) = false ∧
          strContains l ALT_HEADER = false := by
  intro lines
  induction lines with
  | nil =>
    intro g g' h
    rw [show forEntryCollectTagged g [] = Except.ok g from rfl, Except.ok.injEq] at h
    rw [← h]
    exact fun pr hpr => Or.inl hpr
  | cons l rest ih =>
    intro g g' h
    rw [show forEntryCollectTagged g (l :: rest) =
      (feStep collectCbTagged g l).bind (fun g1 => forEntryCollectTagged g1 rest)
      from rfl] at h
    cases hstep : feStep collectCbTagged g l with
    | error e =>
      rw [hstep] at h
      exact Except.noConfusion h
    | ok g1 =>
      rw [hstep] at h
      intro pr hpr
      rcases ih g1 g' h pr hpr with hm | ⟨l', hl', ht', hh', hc', ha'⟩
      · rcases feStep_tagged_seen g g1 l hstep pr hm with hm' | ⟨ht', hh', hc', ha'⟩
        · exact Or.inl hm'
        · exact Or.inr ⟨l, List.mem_cons_self l rest, ht', hh', hc', ha'⟩
      · exact Or.inr ⟨l', List.mem_cons_of_mem l hl', ht', hh', hc', ha'⟩

/-- C7 (amended): while `for_entry` iterates a line source starting from the
default header state, the column mapping is switched at most once over the
whole run, and every entry handed to the per-record callback comes from a
line that is not a comment, does not contain the header that was active at
the moment it was processed (the flag the callback is invoked with), and
does not contain the alternate header; a line matching the original default
header encountered after the switch, however, no longer matches the active
header and is passed to the callback as data (see the counterexample). -/
theorem for_entry_header_discipline (lines : List String)
    (g' : GState (List (Bool × List String)))
    (h : forEntryCollectTagged ⟨false, 0, []⟩ lines = Except.ok g') :
    g'.switches ≤ 1 ∧
    ∀ pr ∈ g'.inner, ∃ l, l ∈ lines ∧ pr.2 = pySplit l ∧
      l.data.head? ≠ some '#' ∧ strContains l (activeHeader pr.1) = false ∧
      strContains l ALT_HEADER = false := by
  refine ⟨(for_entry_switch_inv collectCbTagged lines ⟨false, 0, []⟩ g' h (fun _ => rfl)
    (by norm_num)).2, ?_⟩
  intro pr hpr
  rcases for_entry_tagged_seen lines ⟨false, 0, []⟩ g' h pr hpr with h0 | h1
  · exact absurd h0 (List.not_mem_nil pr)
  · exact h1

/-- C7 witness: a plain data line reaches the callback under the default
header, the switch counter stays at most 1, and the collected entry's line
contains neither the then-active default header nor the alternate one. -/
theorem for_entry_header_discipline_witness :
    (⟨false, 0, [(false, ["7", "8"])]⟩ : GState (List (Bool × List String))).switches ≤ 1 ∧
    ∀ pr ∈ (⟨false, 0, [(false, ["7", "8"])]⟩ :
        GState (List (Bool × List String))).inner,
      ∃ l, l ∈ ["7 8"] ∧ pr.2 = pySplit l ∧ l.data.head? ≠ some '#' ∧
        strContains l (activeHeader pr.1) = false ∧
        strContains l ALT_HEADER = false :=
  for_entry_header_discipline ["7 8"] ⟨false, 0, [(false, ["7", "8"])]⟩ rfl

set_option maxRecDepth 100000 in
/-- C7 counterexample: a source consisting of the alternate header line
followed by the original default header line switches the mapping, and then
hands the default header line's tokens to the per-record callback as data —
a header line is passed to the callback, contrary to the claim. -/
theorem for_entry_header_line_reaches_callback :
    (forEntryCollect ⟨false, 0, []⟩ [ALT_HEADER, HEADER]).map (fun g => g.inner) =
      Except.ok [pySplit HEADER] ∧ pySplit HEADER ≠ [] := by
  constructor
  · rfl
  · intro h
    exact List.noConfusion h

set_option maxRecDepth 10000 in
theorem col_info : ∀ alt : Bool, COLUMN alt "info" = if alt then 14 else 16 := by decide

set_option maxRecDepth 10000 in
theorem col_maf : ∀ alt : Bool,
    COLUMN alt "minor_allele_frequency" = if alt then 11 else 13 := by decide

set_option maxRecDepth 10000 in
theorem col_chromosome : ∀ alt : Bool, COLUMN alt "chromosome" = 2 := by decide

set_option maxRecDepth 10000 in
theorem col_position : ∀ alt : Bool, COLUMN alt "position" = 3 := by decide

set_option maxRecDepth 10000 in
theorem col_missing : ∀ alt : Bool,
    COLUMN alt "missing_proportion" = if alt then 16 else 18 := by decide

set_option maxRecDepth 10000 in
theorem col_alleleA : ∀ alt : Bool, COLUMN alt "alleleA" = 4 := by decide

set_option maxRecDepth 10000 in
theorem col_alleleB : ∀ alt : Bool, COLUMN alt "alleleB" = 5 := by decide

/-- C8: `Entry.info` and `Entry.maf` return their column parsed as a float
and the sentinel `-1` exactly when that column's text does not parse
(`(parseFloat t).getD (-1)` covers both cases); the failure is confined to
the field — replacing the info column by any text leaves the chromosome,
position and MAF accessors unchanged. -/
theorem entry_numeric_sentinel (alt : Bool) (e : Entry) :
    (∀ t, e.data.get? (COLUMN alt "info") = some t →
      Entry.info alt e = Except.ok ((parseFloat t).getD (-1))) ∧
    (∀ t, e.data.get? (COLUMN alt "minor_allele_frequency") = some t →
      Entry.maf alt e = Except.ok ((parseFloat t).getD (-1))) ∧
    (∀ t : String,
      Entry.chr alt ⟨e.data.set (COLUMN alt "info") t⟩ = Entry.chr alt e ∧
      Entry.pos alt ⟨e.data.set (COLUMN alt "info") t⟩ = Entry.pos alt e ∧
      Entry.maf alt ⟨e.data.set (COLUMN alt "info") t⟩ = Entry.maf alt e) := by
  refine ⟨?_, ?_, ?_⟩
  · intro t ht
    rw [Entry.info, pyGet, ht]
    show (match parseFloat t with
      | some v => Except.ok v
      | none => (Except.ok (-1) : Except Err ℚ)) = _
    cases hp : parseFloat t <;> simp [hp]
  · intro t ht
    rw [Entry.maf, pyGet, ht]
    show (match parseFloat t with
      | some v => Except.ok v
      | none => (Except.ok (-1) : Except Err ℚ)) = _
    cases hp : parseFloat t <;> simp [hp]
  · intro t
    have hset : ∀ j, COLUMN alt "info" ≠ j →
        (e.data.set (COLUMN alt "info") t).get? j = e.data.get? j := by
      intro j hj
      exact List.get?_set_ne t e.data hj
    refine ⟨?_, ?_, ?_⟩
    · rw [Entry.chr, Entry.chr, pyGet, pyGet, hset (COLUMN alt "chromosome")
        (by cases alt <;> simp [col_info, col_chromosome])]
    · rw [Entry.pos, Entry.pos, pyGet, pyGet, hset (COLUMN alt "position")
        (by cases alt <;> simp [col_info, col_position])]
    · rw [Entry.maf, Entry.maf, pyGet, pyGet, hset (COLUMN alt "minor_allele_frequency")
        (by cases alt <;> simp [col_info, col_maf])]

set_option maxRecDepth 10000 in
/-- C8 witness: a record whose info column holds the unparsable token `"z"`
yields the sentinel `-1` from `Entry.info`, and its chromosome accessor is
unaffected by the content of the info column. -/
theorem entry_numeric_sentinel_witness :
    Entry.info false ⟨List.replicate 26 "z"⟩ = Except.ok ((parseFloat "z").getD (-1)) ∧
    Entry.chr false ⟨(List.replicate 26 "z").set (COLUMN false "info") "q"⟩ =
      Entry.chr false ⟨List.replicate 26 "z"⟩ :=
  ⟨(entry_numeric_sentinel false ⟨List.replicate 26 "z"⟩).1 "z" (by decide),
   ((entry_numeric_sentinel false ⟨List.replicate 26 "z"⟩).2.2 "q").1⟩

/-- C10: `Entry.set_maf` changes only the token at the
minor-allele-frequency column — token count is preserved, that column
becomes `str(maf)`, every other token is unchanged, and the chromosome,
position, info, missing-proportion and structural-variant accessors are
untouched. -/
theorem set_maf_frame (toStr : ℚ → String) (alt : Bool) (e e' : Entry) (m : ℚ)
    (h : Entry.set_maf toStr alt e m = Except.ok e') :
    e'.data.length = e.data.length ∧
    e'.data.get? (COLUMN alt "minor_allele_frequency") = some (toStr m) ∧
    (∀ j, j ≠ COLUMN alt "minor_allele_frequency" → e'.data.get? j = e.data.get? j) ∧
    Entry.chr alt e' = Entry.chr alt e ∧
    Entry.pos alt e' = Entry.pos alt e ∧
    Entry.info alt e' = Entry.info alt e ∧
    Entry.missing_proportion alt e' = Entry.missing_proportion alt e ∧
    Entry.structural_variant alt e' = Entry.structural_variant alt e := by
  rw [Entry.set_maf] at h
  by_cases hlen : COLUMN alt "minor_allele_frequency" < e.data.length
  · rw [if_pos hlen, Except.ok.injEq] at h
    have hdata : e'.data = e.data.set (COLUMN alt "minor_allele_frequency") (toStr m) := by
      rw [← h]
    have hset : ∀ j, COLUMN alt "minor_allele_frequency" ≠ j →
        e'.data.get? j = e.data.get? j := by
      intro j hj
      rw [hdata]
      exact List.get?_set_ne (toStr m) e.data hj
    refine ⟨by rw [hdata, List.length_set], ?_, fun j hj => hset j (Ne.symm hj),
      ?_, ?_, ?_, ?_, ?_⟩
    · rw [hdata]
      exact List.get?_set_eq_of_lt (toStr m) hlen
    · rw [Entry.chr, Entry.chr, pyGet, pyGet, hset (COLUMN alt "chromosome")
        (by cases alt <;> simp [col_maf, col_chromosome])]
    · rw [Entry.pos, Entry.pos, pyGet, pyGet, hset (COLUMN alt "position")
        (by cases alt <;> simp [col_maf, col_position])]
    · rw [Entry.info, Entry.info, pyGet, pyGet, hset (COLUMN alt "info")
        (by cases alt <;> simp [col_maf, col_info])]
    · rw [Entry.missing_proportion, Entry.missing_proportion, pyGet, pyGet,
        hset (COLUMN alt "missing_proportion")
        (by cases alt <;> simp [col_maf, col_missing])]
    · rw [Entry.structural_variant, Entry.structural_variant, pyGet, pyGet,
        hset (COLUMN alt "alleleA") (by cases alt <;> simp [col_maf, col_alleleA]),
        pyGet, pyGet, hset (COLUMN alt "alleleB")
        (by cases alt <;> simp [col_maf, col_alleleB])]
  · rw [if_neg hlen] at h
    exact Except.noConfusion h

set_option maxRecDepth 10000 in
/-- C10 witness: setting the MAF of a concrete 26-column record changes
exactly the minor-allele-frequency token. -/
theorem set_maf_frame_witness :
    ((⟨(List.replicate 26 "z").set 13 "Q"⟩ : Entry).data.length =
      (⟨List.replicate 26 "z"⟩ : Entry).data.length) ∧
    Entry.chr false ⟨(List.replicate 26 "z").set 13 "Q"⟩ =
      Entry.chr false ⟨List.replicate 26 "z"⟩ ∧
    (⟨(List.replicate 26 "z").set 13 "Q"⟩ : Entry).data.get? 13 = some "Q" := by
  have h := set_maf_frame (fun _ => "Q") false ⟨List.replicate 26 "z"⟩
    ⟨(List.replicate 26 "z").set 13 "Q"⟩ 2 rfl
  refine ⟨h.1, h.2.2.2.1, ?_⟩
  have h2 := h.2.1
  rw [col_maf] at h2
  exact h2

theorem lookupAux_notfound (L : List RefEntry) (p : Int) :
    ∀ (fuel lo hi : Nat), hi - lo ≤ fuel →
      (∀ i e, lo ≤ i → i < hi → L.get? i = some e → e.pos ≠ p) →
      lookupAux L p fuel lo hi = -1 := by
  intro fuel
  induction fuel with
  | zero => intro lo hi _ _; simp [lookupAux]
  | succ fuel ih =>
    intro lo hi hfuel hnone
    simp only [lookupAux]
    by_cases hle : hi ≤ lo
    · rw [if_pos hle]
    · rw [if_neg hle]
      have hlo : lo < hi := Nat.lt_of_not_le hle
      have hmidlo : lo ≤ (lo + hi) / 2 := by omega
      have hmidhi : (lo + hi) / 2 < hi := by omega
      cases hg : L.get? ((lo + hi) / 2) with
      | none => rfl
      | some e =>
        have hne : e.pos ≠ p := hnone ((lo + hi) / 2) e hmidlo hmidhi hg
        show (if e.pos = p then e.maf
          else if p < e.pos then lookupAux L p fuel lo ((lo + hi) / 2)
          else lookupAux L p fuel ((lo + hi) / 2 + 1) hi) = -1
        rw [if_neg hne]
        by_cases hlt : p < e.pos
        · rw [if_pos hlt]
          exact ih lo ((lo + hi) / 2) (by omega)
            (fun i e' h1 h2 => hnone i e' h1 (by omega))
        · rw [if_neg hlt]
          exact ih ((lo + hi) / 2 + 1) hi (by omega)
            (fun i e' h1 h2 => hnone i e' (by omega) h2)

theorem lookupAux_found (L : List RefEntry) (p : Int) :
    ∀ (fuel lo hi k : Nat) (ek : RefEntry), hi - lo ≤ fuel → hi ≤ L.length →
      (∀ i j e f, lo ≤ i → i < j → j < hi →
        L.get? i = some e → L.get? j = some f → e.pos < f.pos) →
      lo ≤ k → k < hi → L.get? k = some ek → ek.pos = p →
      lookupAux L p fuel lo hi = ek.maf := by
  intro fuel
  induction fuel with
  | zero => intro lo hi k ek hfuel _ _ hk1 hk2 _ _; omega
  | succ fuel ih =>
    intro lo hi k ek hfuel hhi hs hk1 hk2 hgk hkp
    simp only [lookupAux]
    have hle : ¬hi ≤ lo := by omega
    rw [if_neg hle]
    have hmidlo : lo ≤ (lo + hi) / 2 := by omega
    have hmidhi : (lo + hi) / 2 < hi := by omega
    have hmidlen : (lo + hi) / 2 < L.length := by omega
    obtain ⟨em, hgm⟩ : ∃ em, L.get? ((lo + hi) / 2) = some em :=
      ⟨L.get ⟨(lo + hi) / 2, hmidlen⟩, List.get?_eq_get hmidlen⟩
    rw [hgm]
    show (if em.pos = p then em.maf
      else if p < em.pos then lookupAux L p fuel lo ((lo + hi) / 2)
      else lookupAux L p fuel ((lo + hi) / 2 + 1) hi) = ek.maf
    by_cases he : em.pos = p
    · rw [if_pos he]
      have hmk : (lo + hi) / 2 = k := by
        rcases Nat.lt_trichotomy ((lo + hi) / 2) k with h | h | h
        · have := hs ((lo + hi) / 2) k em ek hmidlo h hk2 hgm hgk
          omega
        · exact h
        · have := hs k ((lo + hi) / 2) ek em hk1 h hmidhi hgk hgm
          omega
      rw [hmk] at hgm
      rw [hgm] at hgk
      rw [Option.some_inj.mp hgk]
    · rw [if_neg he]
      by_cases hlt : p < em.pos
      · rw [if_pos hlt]
        have hklt : k < (lo + hi) / 2 := by
          rcases Nat.lt_trichotomy k ((lo + hi) / 2) with h | h | h
          · exact h
          · rw [h] at hgk
            rw [hgk] at hgm
            exact absurd (Option.some_inj.mp hgm ▸ hkp) he
          · have := hs ((lo + hi) / 2) k em ek hmidlo h hk2 hgm hgk
            omega
        exact ih lo ((lo + hi) / 2) k ek (by omega) (by omega)
          (fun i j e f h1 h2 h3 => hs i j e f h1 h2 (by omega)) hk1 hklt hgk hkp
      · rw [if_neg hlt]
        have hkgt : (lo + hi) / 2 < k := by
          rcases Nat.lt_trichotomy ((lo + hi) / 2) k with h | h | h
          · exact h
          · rw [← h] at hgk
            rw [hgk] at hgm
            exact absurd (Option.some_inj.mp hgm ▸ hkp) he
          · have := hs k ((lo + hi) / 2) ek em hk1 h hmidhi hgk hgm
            omega
        exact ih ((lo + hi) / 2 + 1) hi k ek (by omega) hhi
          (fun i j e f h1 h2 h3 => hs i j e f (by omega) h2 h3)
          (by omega) hk2 hgk hkp

theorem linearScan_of_no_match (c : String) (p : Int) :
    ∀ L : List RefEntry, (∀ i e, L.get? i = some e → ¬(e.chr = c ∧ e.pos = p)) →
      linearScan L c p = -1 := by
  intro L
  induction L with
  | nil => intro _; rfl
  | cons e rest ih =>
    intro h
    rw [linearScan, if_neg (h 0 e rfl)]
    exact ih fun i f hf => h (i + 1) f (by simpa using hf)

theorem linearScan_finds (c : String) (p : Int) :
    ∀ (L : List RefEntry) (k : Nat) (ek : RefEntry),
      L.get? k = some ek → ek.chr = c → ek.pos = p →
      (∀ j f, j < k → L.get? j = some f → ¬(f.chr = c ∧ f.pos = p)) →
      linearScan L c p = ek.maf := by
  intro L
  induction L with
  | nil => intro k ek h; simp at h
  | cons e rest ih =>
    intro k ek hk hc hp hmin
    cases k with
    | zero =>
      have he : e = ek := by simpa using hk
      cases he
      rw [linearScan, if_pos ⟨hc, hp⟩]
    | succ k =>
      rw [linearScan, if_neg (hmin 0 e (Nat.succ_pos k) rfl)]
      exact ih k ek (by simpa using hk) hc hp
        (fun j f hj hf => hmin (j + 1) f (by omega) (by simpa using hf))

/-- C6 (modelled from the spec, the `MafIndex` class being absent from
`src/`): for a reference file sorted by chromosome then position, whose index
assigns to chromosome `c` exactly the line range `[lo, hi)`, the binary
search `MafIndex.lookup` returns the MAF recorded at the queried position, or
`-1` when the position is absent — the same result as a linear scan of the
file. -/
theorem mafindex_lookup_eq_linear_scan (L : List RefEntry) (c : String) (p : Int)
    (lo hi : Nat) (hhi : hi ≤ L.length)
    (hrange : ∀ i (h : i < L.length), ((L.get ⟨i, h⟩).chr = c ↔ (lo ≤ i ∧ i < hi)))
    (hsort : ∀ i (h1 : i < L.length), ∀ j (h2 : j < L.length), lo ≤ i → i < j → j < hi →
      (L.get ⟨i, h1⟩).pos < (L.get ⟨j, h2⟩).pos) :
    MafIndex.lookup L lo hi p = linearScan L c p := by
  have hs' : ∀ i j e f, lo ≤ i → i < j → j < hi →
      L.get? i = some e → L.get? j = some f → e.pos < f.pos := by
    intro i j e f h1 h2 h3 hge hgf
    have hi' : i < L.length := (List.get?_eq_some.mp hge).1
    have hj' : j < L.length := (List.get?_eq_some.mp hgf).1
    have hei : L.get ⟨i, hi'⟩ = e := by
      rw [← Option.some_inj, ← List.get?_eq_get hi', hge]
    have hej : L.get ⟨j, hj'⟩ = f := by
      rw [← Option.some_inj, ← List.get?_eq_get hj', hgf]
    rw [← hei, ← hej]
    exact hsort i hi' j hj' h1 h2 h3
  by_cases hex : ∃ k, ∃ h : k < L.length, lo ≤ k ∧ k < hi ∧ (L.get ⟨k, h⟩).pos = p
  · obtain ⟨k, hk, hk1, hk2, hkp⟩ := hex
    have hgk : L.get? k = some (L.get ⟨k, hk⟩) := List.get?_eq_get hk
    have hekc : (L.get ⟨k, hk⟩).chr = c := (hrange k hk).mpr ⟨hk1, hk2⟩
    rw [MafIndex.lookup,
      lookupAux_found L p (hi - lo) lo hi k (L.get ⟨k, hk⟩) (le_refl _) hhi hs'
        hk1 hk2 hgk hkp,
      linearScan_finds c p L k (L.get ⟨k, hk⟩) hgk hekc hkp ?_]
    intro j f hj hgf hmatch
    have hj' : j < L.length := (List.get?_eq_some.mp hgf).1
    have hej : L.get ⟨j, hj'⟩ = f := by
      rw [← Option.some_inj, ← List.get?_eq_get hj', hgf]
    have hjr : lo ≤ j ∧ j < hi := (hrange j hj').mp (hej ▸ hmatch.1)
    have := hs' j k f (L.get ⟨k, hk⟩) hjr.1 hj hk2 hgf hgk
    rw [hmatch.2, hkp] at this
    exact absurd this (lt_irrefl p)
  · push_neg at hex
    rw [MafIndex.lookup, lookupAux_notfound L p (hi - lo) lo hi (le_refl _) ?_,
      linearScan_of_no_match c p L ?_]
    · intro i e hge hmatch
      have hi' : i < L.length := (List.get?_eq_some.mp hge).1
      have hei : L.get ⟨i, hi'⟩ = e := by
        rw [← Option.some_inj, ← List.get?_eq_get hi', hge]
      have hir : lo ≤ i ∧ i < hi := (hrange i hi').mp (hei ▸ hmatch.1)
      exact hex i hi' hir.1 hir.2 (hei ▸ hmatch.2)
    · intro i e h1 h2 hge
      have hi' : i < L.length := (List.get?_eq_some.mp hge).1
      have hei : L.get ⟨i, hi'⟩ = e := by
        rw [← Option.some_inj, ← List.get?_eq_get hi', hge]
      exact fun hp => hex i hi' h1 h2 (hei ▸ hp)

/-- C6 witness: a concrete sorted three-line reference file where the binary
search over `chr1`'s line range `[0, 2)` agrees with the linear scan, both
finding the MAF at position 9. -/
theorem mafindex_lookup_eq_linear_scan_witness :
    MafIndex.lookup [⟨"chr1", 5, 10⟩, ⟨"chr1", 9, 20⟩, ⟨"chr2", 3, 30⟩] 0 2 9 =
      linearScan [⟨"chr1", 5, 10⟩, ⟨"chr1", 9, 20⟩, ⟨"chr2", 3, 30⟩] "chr1" 9 ∧
    linearScan [⟨"chr1", 5, 10⟩, ⟨"chr1", 9, 20⟩, ⟨"chr2", 3, 30⟩] "chr1" 9 = 20 :=
  ⟨mafindex_lookup_eq_linear_scan [⟨"chr1", 5, 10⟩, ⟨"chr1", 9, 20⟩, ⟨"chr2", 3, 30⟩]
    "chr1" 9 0 2 (by norm_num) (by decide) (by decide), by decide⟩


